import Mathlib

/-!
Shallow embedding of the MPSC channel in `src/channels.rs`.

The shared state (`Inner<T>`: the `VecDeque` queue and the `senders` count)
together with the receiver's private buffer (`Receiver::buf`) is modelled as
one record `Chan`.  Every operation of the source holds the mutex for the
whole of its read-modify-write on the shared fields, so each operation is an
atomic step on this state and a concurrent execution is an interleaving of
these steps.

`recv` in the source either returns a value, returns `Err(RecvError)`, or
parks on the condition variable; the embedding makes one atomic attempt and
reports the parked case as `wouldBlock` (the source loops and re-runs the
same attempt on wake, so the attempt function fully determines behaviour).
-/

namespace Channels

/-- Outcome of one atomic `recv` attempt: `Ok(v)`, `Err(RecvError)`, or the
case where the source would block on `Condvar::wait`. -/
inductive RecvOutcome (α : Type) where
| ok : α → RecvOutcome α
| disconnected : RecvOutcome α
| wouldBlock : RecvOutcome α
deriving DecidableEq, Repr

/-- The channel state: the shared queue (`Inner::queue`), the live-sender
count (`Inner::senders`), and the receiver's private buffer
(`Receiver::buf`).  Lists are front-first: `pop_front` takes the head,
`push_back` appends. -/
structure Chan (α : Type) where
queue : List α
senders : Nat
buf : List α
deriving DecidableEq, Repr

/-- `channel::<T>()`: fresh shared state with an empty queue, `senders = 1`,
and an empty private buffer for the receiver. -/
def channel (α : Type) : Chan α :=
  ⟨[], 1, []⟩

/-- `Sender::send`: under the lock, `queue.push_back(val)`. -/
def send (c : Chan α) (val : α) : Chan α :=
  { c with queue := c.queue ++ [val] }

/-- `Clone for Sender`: under the lock, `senders += 1`. -/
def cloneSender (c : Chan α) : Chan α :=
  { c with senders := c.senders + 1 }

/-- `Drop for Sender`: under the lock, `senders -= 1`. -/
def dropSender (c : Chan α) : Chan α :=
  { c with senders := c.senders - 1 }

/-- The lock-held body of `Receiver::recv` (everything after
`self.inner.mu.lock()`): pop the front of the shared queue; if the queue is
still non-empty afterwards, `std::mem::swap(&mut self.buf, &mut inner.queue)`;
an empty queue yields `Err` when `senders == 0` and otherwise waits on the
condition variable.  Arguments are the receiver's buffer and the two shared
fields; the result carries the new buffer, queue and sender count. -/
def recvLocked (buf q : List α) (senders : Nat) :
    RecvOutcome α × (List α × List α × Nat) :=
  match q with
  | v :: rest =>
    if rest.isEmpty then
      (.ok v, (buf, rest, senders))
    else
      (.ok v, (rest, buf, senders))
  | [] =>
    if senders == 0 then
      (.disconnected, (buf, [], senders))
    else
      (.wouldBlock, (buf, [], senders))

/-- `Receiver::recv`: fast path pops the front of the private buffer without
touching the shared state; otherwise the locked body `recvLocked` runs on the
(necessarily empty) buffer and the shared fields. -/
def recv (c : Chan α) : RecvOutcome α × Chan α :=
  match c.buf with
  | v :: rest => (.ok v, { c with buf := rest })
  | [] =>
    match recvLocked c.buf c.queue c.senders with
    | (r, (b, q, s)) => (r, ⟨q, s, b⟩)

/-- Whether a call to `recv` on state `c` acquires the shared mutex: the
source locks exactly when the private-buffer fast path misses. -/
def recvAcquiresLock (c : Chan α) : Bool :=
  match c.buf with
  | _ :: _ => false
  | [] => true

/-- `send` of each value of `vs` in order, through the one lock. -/
def sendAll (c : Chan α) (vs : List α) : Chan α :=
  vs.foldl send c

/-- `n` successive calls to `recv`, collecting the outcomes in call order. -/
def recvN (c : Chan α) : Nat → List (RecvOutcome α) × Chan α
  | 0 => ([], c)
  | Nat.succ n =>
    let p := recv c
    let q := recvN p.2 n
    (p.1 :: q.1, q.2)

/-- The logical pending set: values sent but not yet delivered, oldest first.
The private buffer holds older values than the shared queue. -/
def pending (c : Chan α) : List α :=
  c.buf ++ c.queue

/-! ### A naive reference model without the private buffer

The specification calls the buffer swap an optimization that must not change
observable behaviour versus always popping the shared queue under the lock.
`NaiveChan` / `recvNaive` are that naive implementation, written from the
spec's words, to be compared with the source-derived `recv`. -/

/-- State of the naive channel: only the shared queue and the sender count. -/
structure NaiveChan (α : Type) where
queue : List α
senders : Nat
deriving DecidableEq, Repr

/-- Naive `recv`: always pop the front of the shared queue under the lock;
`Err` when empty with no senders; block when empty with a sender alive. -/
def recvNaive (c : NaiveChan α) : RecvOutcome α × NaiveChan α :=
  match c.queue with
  | v :: rest => (.ok v, { c with queue := rest })
  | [] =>
    if c.senders == 0 then (.disconnected, c) else (.wouldBlock, c)

/-- Abstraction from the buffered implementation to the naive model: the
naive queue is the pending set, oldest first. -/
def abstr (c : Chan α) : NaiveChan α :=
  ⟨pending c, c.senders⟩

/-! ### Operation traces

A concurrent execution of the source is an interleaving of the four
lock-atomic operations.  `Op` names one operation; the run functions apply a
trace of operations and collect the outcome of every `recv` in order. -/

/-- One lock-atomic operation on the channel. -/
inductive Op (α : Type) where
| send : α → Op α
| clone : Op α
| dropS : Op α
| recvOp : Op α
deriving DecidableEq, Repr

/-- Run a trace of operations on the buffered implementation, collecting the
outcome of every `recv` in order. -/
def runChan (c : Chan α) : List (Op α) → List (RecvOutcome α) × Chan α
  | [] => ([], c)
  | op :: ops =>
    match op with
    | .send v => runChan (send c v) ops
    | .clone => runChan (cloneSender c) ops
    | .dropS => runChan (dropSender c) ops
    | .recvOp =>
      let p := recv c
      let q := runChan p.2 ops
      (p.1 :: q.1, q.2)

/-- Run a trace of operations on the naive model. -/
def runNaive (c : NaiveChan α) : List (Op α) → List (RecvOutcome α) × NaiveChan α
  | [] => ([], c)
  | op :: ops =>
    match op with
    | .send v => runNaive { c with queue := c.queue ++ [v] } ops
    | .clone => runNaive { c with senders := c.senders + 1 } ops
    | .dropS => runNaive { c with senders := c.senders - 1 } ops
    | .recvOp =>
      let p := recvNaive c
      let q := runNaive p.2 ops
      (p.1 :: q.1, q.2)

/-- Run a trace while tracking `h`, the number of live `Sender` handles.
`send`, `clone` and `drop` each require a live handle (`h ≠ 0`): in the
source they are methods of a `Sender` value, so they cannot be called once
every handle is dropped.  A trace violating this is rejected with `none`. -/
def runHandles (c : Chan α) (h : Nat) :
    List (Op α) → Option (Chan α × Nat)
  | [] => some (c, h)
  | op :: ops =>
    match op with
    | .send v => if h = 0 then none else runHandles (send c v) h ops
    | .clone => if h = 0 then none else runHandles (cloneSender c) (h + 1) ops
    | .dropS => if h = 0 then none else runHandles (dropSender c) (h - 1) ops
    | .recvOp => runHandles (recv c).2 h ops

/-- An operation available once the `Receiver` has been dropped: only the
sender-side operations remain. -/
inductive SenderOp (α : Type) where
| send : α → SenderOp α
| clone : SenderOp α
| dropS : SenderOp α
deriving DecidableEq, Repr

/-- Apply a trace of sender-side operations. -/
def runSenderOps (c : Chan α) : List (SenderOp α) → Chan α
  | [] => c
  | op :: ops =>
    match op with
    | .send v => runSenderOps (send c v) ops
    | .clone => runSenderOps (cloneSender c) ops
    | .dropS => runSenderOps (dropSender c) ops

/-! ### Interleavings of several senders

With N senders racing for the one lock, the order in which values enter the
shared queue is some merge of the per-sender send sequences.  A schedule is
the list of sender indices in lock-acquisition order; `mergeSched` turns the
per-sender value lists and a schedule into the global enqueue order, failing
when the schedule picks a sender with nothing left to send or stops early. -/

/-- Remove the front value of the `i`-th list. -/
def takeFrom (vss : List (List α)) (i : Nat) : Option (α × List (List α)) :=
  match vss[i]? with
  | some (v :: rest) => some (v, vss.set i rest)
  | _ => none

/-- The global enqueue order produced by schedule `s` over the per-sender
send lists `vss`; `none` if `s` is not a complete schedule of `vss`. -/
def mergeSched : List (List α) → List Nat → Option (List α)
  | vss, [] => if vss.all List.isEmpty then some [] else none
  | vss, i :: s =>
    match takeFrom vss i with
    | some (v, vss2) => (mergeSched vss2 s).map (fun ws => v :: ws)
    | none => none

/-! ### Helper lemmas -/

/-- `recv` never changes the sender count. -/
lemma recv_senders (c : Chan α) : (recv c).2.senders = c.senders := by
  rcases c with ⟨q, s, b⟩
  cases b with
  | cons x xs => simp [recv]
  | nil =>
    cases q with
    | nil =>
      by_cases h : s == 0 <;> simp [recv, recvLocked, h]
    | cons v rest =>
      cases rest <;> simp [recv, recvLocked]

/-- `sendAll` appends the sent values at the back of the shared queue and
touches nothing else. -/
lemma sendAll_eq (vs : List α) : ∀ c : Chan α,
    sendAll c vs = ⟨c.queue ++ vs, c.senders, c.buf⟩ := by
  induction vs with
  | nil => intro c; simp [sendAll]
  | cons v vs ih =>
    intro c
    show sendAll (send c v) vs = _
    rw [ih (send c v)]
    simp [send]

/-- Draining a channel whose pending set has length `n` with `n` calls to
`recv` returns exactly the pending values, oldest first, and empties the
channel. -/
lemma recvN_drain : ∀ (n : Nat) (b q : List α) (s : Nat),
    b.length + q.length = n →
    (recvN ⟨q, s, b⟩ n).1 = (b ++ q).map RecvOutcome.ok ∧
    (recvN ⟨q, s, b⟩ n).2 = ⟨[], s, []⟩ := by
  intro n
  induction n with
  | zero =>
    intro b q s hlen
    have hb : b = [] := List.eq_nil_of_length_eq_zero (by omega)
    have hq : q = [] := List.eq_nil_of_length_eq_zero (by omega)
    subst hb; subst hq
    simp [recvN]
  | succ n ih =>
    intro b q s hlen
    cases b with
    | cons x xs =>
      have hstep : recv (⟨q, s, x :: xs⟩ : Chan α) = (.ok x, ⟨q, s, xs⟩) := by
        simp [recv]
      have h2 := ih xs q s (by simp at hlen; omega)
      constructor
      · show ((recv (⟨q, s, x :: xs⟩ : Chan α)).1 ::
            (recvN (recv (⟨q, s, x :: xs⟩ : Chan α)).2 n).1) = _
        rw [hstep]
        simpa using h2.1
      · show (recvN (recv (⟨q, s, x :: xs⟩ : Chan α)).2 n).2 = _
        rw [hstep]
        exact h2.2
    | nil =>
      cases q with
      | nil => simp at hlen
      | cons v rest =>
        have hlen2 : rest.length = n := by simpa using hlen
        cases rest with
        | nil =>
          have hstep : recv (⟨[v], s, []⟩ : Chan α) = (.ok v, ⟨[], s, []⟩) := by
            simp [recv, recvLocked]
          have h2 := ih [] [] s (by simpa using hlen2)
          constructor
          · show ((recv (⟨[v], s, []⟩ : Chan α)).1 ::
                (recvN (recv (⟨[v], s, []⟩ : Chan α)).2 n).1) = _
            rw [hstep]
            simpa using h2.1
          · show (recvN (recv (⟨[v], s, []⟩ : Chan α)).2 n).2 = _
            rw [hstep]
            exact h2.2
        | cons y ys =>
          have hstep : recv (⟨v :: y :: ys, s, []⟩ : Chan α) =
              (.ok v, ⟨[], s, y :: ys⟩) := by
            simp [recv, recvLocked]
          have h2 := ih (y :: ys) [] s (by simpa using hlen2)
          constructor
          · show ((recv (⟨v :: y :: ys, s, []⟩ : Chan α)).1 ::
                (recvN (recv (⟨v :: y :: ys, s, []⟩ : Chan α)).2 n).1) = _
            rw [hstep]
            simpa using h2.1
          · show (recvN (recv (⟨v :: y :: ys, s, []⟩ : Chan α)).2 n).2 = _
            rw [hstep]
            exact h2.2

/-- One `recv` step of the buffered implementation matches one step of the
naive model through the abstraction: same outcome, related states. -/
lemma recv_sim (c : Chan α) :
    (recv c).1 = (recvNaive (abstr c)).1 ∧
    abstr (recv c).2 = (recvNaive (abstr c)).2 := by
  rcases c with ⟨q, s, b⟩
  cases b with
  | cons x xs => simp [recv, recvNaive, abstr, pending]
  | nil =>
    cases q with
    | nil =>
      by_cases h : s == 0 <;>
        simp [recv, recvLocked, recvNaive, abstr, pending, h]
    | cons v rest =>
      cases rest <;> simp [recv, recvLocked, recvNaive, abstr, pending]

/-- Trace-level simulation: the buffered implementation and the naive model
produce the same outcome sequence and remain related. -/
lemma runChan_sim (ops : List (Op α)) : ∀ c : Chan α,
    (runChan c ops).1 = (runNaive (abstr c) ops).1 ∧
    abstr (runChan c ops).2 = (runNaive (abstr c) ops).2 := by
  induction ops with
  | nil => intro c; simp [runChan, runNaive]
  | cons op ops ih =>
    intro c
    cases op with
    | send v =>
      have habs : abstr (send c v) =
          { abstr c with queue := (abstr c).queue ++ [v] } := by
        simp [abstr, send, pending]
      have h2 := ih (send c v)
      rw [habs] at h2
      exact h2
    | clone =>
      have habs : abstr (cloneSender c) =
          { abstr c with senders := (abstr c).senders + 1 } := by
        simp [abstr, cloneSender, pending]
      have h2 := ih (cloneSender c)
      rw [habs] at h2
      exact h2
    | dropS =>
      have habs : abstr (dropSender c) =
          { abstr c with senders := (abstr c).senders - 1 } := by
        simp [abstr, dropSender, pending]
      have h2 := ih (dropSender c)
      rw [habs] at h2
      exact h2
    | recvOp =>
      have hstep := recv_sim c
      have h2 := ih (recv c).2
      rw [hstep.2] at h2
      exact ⟨by simp [runChan, runNaive, hstep.1, h2.1],
             by simp [runChan, runNaive, h2.2]⟩

/-- Along any handle-respecting trace, the `senders` field always equals the
number of live `Sender` handles. -/
lemma runHandles_senders : ∀ (ops : List (Op α)) (c : Chan α) (h : Nat)
    (c2 : Chan α) (h2 : Nat), c.senders = h →
    runHandles c h ops = some (c2, h2) → c2.senders = h2 := by
  intro ops
  induction ops with
  | nil =>
    intro c h c2 h2 hs hrun
    simp [runHandles] at hrun
    rw [← hrun.1, ← hrun.2]
    exact hs
  | cons op ops ih =>
    intro c h c2 h2 hs hrun
    cases op with
    | send v =>
      by_cases h0 : h = 0
      · simp [runHandles, h0] at hrun
      · simp only [runHandles, if_neg h0] at hrun
        exact ih (send c v) h c2 h2 (by simp [send, hs]) hrun
    | clone =>
      by_cases h0 : h = 0
      · simp [runHandles, h0] at hrun
      · simp only [runHandles, if_neg h0] at hrun
        exact ih (cloneSender c) (h + 1) c2 h2 (by simp [cloneSender, hs]) hrun
    | dropS =>
      by_cases h0 : h = 0
      · simp [runHandles, h0] at hrun
      · simp only [runHandles, if_neg h0] at hrun
        exact ih (dropSender c) (h - 1) c2 h2 (by simp [dropSender, hs]) hrun
    | recvOp =>
      simp only [runHandles] at hrun
      exact ih (recv c).2 h c2 h2 (by rw [recv_senders]; exact hs) hrun

/-- Once no handle is live, a handle-respecting trace can only contain
`recv` operations, so the handle count stays `0`. -/
lemma runHandles_zero : ∀ (ops : List (Op α)) (c : Chan α)
    (c2 : Chan α) (h2 : Nat),
    runHandles c 0 ops = some (c2, h2) → h2 = 0 := by
  intro ops
  induction ops with
  | nil =>
    intro c c2 h2 hrun
    simp [runHandles] at hrun
    omega
  | cons op ops ih =>
    intro c c2 h2 hrun
    cases op with
    | send v => simp [runHandles] at hrun
    | clone => simp [runHandles] at hrun
    | dropS => simp [runHandles] at hrun
    | recvOp =>
      simp only [runHandles] at hrun
      exact ih (recv c).2 c2 h2 hrun

/-- `recv` on an empty, disconnected channel reports `Disconnected` and
leaves the state unchanged. -/
lemma recv_empty_disconnected (c : Chan α) (hb : c.buf = [])
    (hq : c.queue = []) (hs : c.senders = 0) :
    recv c = (.disconnected, c) := by
  rcases c with ⟨q, s, b⟩
  simp only at hb hq hs
  subst hb; subst hq; subst hs
  simp [recv, recvLocked]

/-- `recv` reports `Disconnected` exactly when the private buffer and shared
queue are empty and no sender is live. -/
lemma recv_disconnected_iff (c : Chan α) :
    (recv c).1 = .disconnected ↔
      c.buf = [] ∧ c.queue = [] ∧ c.senders = 0 := by
  rcases c with ⟨q, s, b⟩
  cases b with
  | cons x xs => simp [recv]
  | nil =>
    cases q with
    | nil =>
      by_cases h : s = 0
      · subst h; simp [recv, recvLocked]
      · simp [recv, recvLocked, h]
    | cons v rest =>
      cases rest <;> simp [recv, recvLocked]

/-- From an empty, disconnected channel, every handle-respecting trace
leaves the state exactly as it is. -/
lemma runHandles_disconnected : ∀ (ops : List (Op α)) (c : Chan α)
    (c2 : Chan α) (h2 : Nat), c.buf = [] → c.queue = [] → c.senders = 0 →
    runHandles c 0 ops = some (c2, h2) → c2 = c := by
  intro ops
  induction ops with
  | nil =>
    intro c c2 h2 _ _ _ hrun
    simp [runHandles] at hrun
    exact hrun.1.symm
  | cons op ops ih =>
    intro c c2 h2 hb hq hs hrun
    cases op with
    | send v => simp [runHandles] at hrun
    | clone => simp [runHandles] at hrun
    | dropS => simp [runHandles] at hrun
    | recvOp =>
      simp only [runHandles] at hrun
      rw [recv_empty_disconnected c hb hq hs] at hrun
      exact ih c c2 h2 hb hq hs hrun

/-- Sender-side operations never remove anything from the shared queue: the
queue after a sender-only trace extends the queue before it. -/
lemma runSenderOps_queue : ∀ (ops : List (SenderOp α)) (c : Chan α),
    ∃ t : List α, (runSenderOps c ops).queue = c.queue ++ t := by
  intro ops
  induction ops with
  | nil => intro c; exact ⟨[], by simp [runSenderOps]⟩
  | cons op ops ih =>
    intro c
    cases op with
    | send v =>
      obtain ⟨t, ht⟩ := ih (send c v)
      exact ⟨[v] ++ t, by simp [runSenderOps, send] at ht ⊢; simp [ht]⟩
    | clone =>
      obtain ⟨t, ht⟩ := ih (cloneSender c)
      exact ⟨t, by simpa [runSenderOps, cloneSender] using ht⟩
    | dropS =>
      obtain ⟨t, ht⟩ := ih (dropSender c)
      exact ⟨t, by simpa [runSenderOps, dropSender] using ht⟩

/-- Removing the front of the `i`-th list permutes the flattened values:
the values before equal the taken value plus the values after. -/
lemma takeFrom_flatten_perm : ∀ (vss : List (List α)) (i : Nat) (v : α)
    (vss2 : List (List α)), takeFrom vss i = some (v, vss2) →
    vss.flatten.Perm (v :: vss2.flatten) := by
  intro vss
  induction vss with
  | nil => intro i v vss2 h; simp [takeFrom] at h
  | cons l t ih =>
    intro i v vss2 h
    cases i with
    | zero =>
      simp only [takeFrom, List.getElem?_cons_zero] at h
      cases l with
      | nil => simp at h
      | cons x xs =>
        simp only [Option.some.injEq, Prod.mk.injEq] at h
        rw [← h.1, ← h.2]
        simp
    | succ i =>
      simp only [takeFrom, List.getElem?_cons_succ] at h
      cases hti : t[i]? with
      | none => rw [hti] at h; simp at h
      | some ti =>
        rw [hti] at h
        cases ti with
        | nil => simp at h
        | cons x xs =>
          simp only [Option.some.injEq, Prod.mk.injEq] at h
          have h2 : takeFrom t i = some (x, t.set i xs) := by
            simp [takeFrom, hti]
          have hperm := ih i x (t.set i xs) h2
          have p1 : (l ++ t.flatten).Perm (l ++ x :: (t.set i xs).flatten) :=
            hperm.append_left l
          have p2 : (l ++ x :: (t.set i xs).flatten).Perm
              (x :: (l ++ (t.set i xs).flatten)) := List.perm_middle
          rw [← h.1, ← h.2]
          simpa using p1.trans p2

/-- A completed schedule enqueues exactly the values of the per-sender
lists: the merged order is a permutation of their concatenation. -/
lemma mergeSched_perm : ∀ (s : List Nat) (vss : List (List α)) (ws : List α),
    mergeSched vss s = some ws → ws.Perm vss.flatten := by
  intro s
  induction s with
  | nil =>
    intro vss ws h
    simp only [mergeSched] at h
    by_cases hall : vss.all List.isEmpty
    · rw [if_pos hall] at h
      have hws : ws = [] := by simpa using h.symm
      have hflat : vss.flatten = [] := by
        rw [List.flatten_eq_nil_iff]
        intro l hl
        have := List.all_eq_true.mp hall l hl
        simpa using this
      rw [hws, hflat]
    · rw [if_neg hall] at h; simp at h
  | cons i s ih =>
    intro vss ws h
    simp only [mergeSched] at h
    cases htake : takeFrom vss i with
    | none => rw [htake] at h; simp at h
    | some p =>
      rcases p with ⟨v, vss2⟩
      rw [htake] at h
      simp only [Option.map_eq_some'] at h
      obtain ⟨ws2, hm, hws⟩ := h
      subst hws
      exact ((ih vss2 ws2 hm).cons v).trans
        (takeFrom_flatten_perm vss i v vss2 htake).symm

/-- A completed schedule preserves each sender's order: every per-sender
list is a sublist of the merged order. -/
lemma mergeSched_sublist : ∀ (s : List Nat) (vss : List (List α))
    (ws : List α), mergeSched vss s = some ws →
    ∀ (i : Nat) (hi : i < vss.length), List.Sublist (vss.get ⟨i, hi⟩) ws := by
  intro s
  induction s with
  | nil =>
    intro vss ws h i hi
    simp only [mergeSched] at h
    by_cases hall : vss.all List.isEmpty
    · have hmem : vss.get ⟨i, hi⟩ ∈ vss := List.get_mem vss i hi
      have hempty := List.all_eq_true.mp hall _ hmem
      have : vss.get ⟨i, hi⟩ = [] := by simpa using hempty
      rw [this]
      exact List.nil_sublist ws
    · rw [if_neg hall] at h; simp at h
  | cons j s ih =>
    intro vss ws h i hi
    simp only [mergeSched] at h
    cases htake : takeFrom vss j with
    | none => rw [htake] at h; simp at h
    | some p =>
      rcases p with ⟨v, vss2⟩
      rw [htake] at h
      simp only [Option.map_eq_some'] at h
      obtain ⟨ws2, hm, hws⟩ := h
      subst hws
      simp only [takeFrom] at htake
      cases hget : vss[j]? with
      | none => rw [hget] at htake; simp at htake
      | some l =>
        rw [hget] at htake
        cases l with
        | nil => simp at htake
        | cons x xs =>
          simp only [Option.some.injEq, Prod.mk.injEq] at htake
          obtain ⟨hxv, hvss2⟩ := htake
          subst hxv
          subst hvss2
          obtain ⟨hj, hgetj⟩ := List.getElem?_eq_some.mp hget
          by_cases hij : i = j
          · subst hij
            have hvi : vss.get ⟨i, hi⟩ = x :: xs := by
              rw [List.get_eq_getElem]; exact hgetj
            have hsub := ih (vss.set i xs) ws2 hm i (by simpa using hi)
            have hvi2 : (vss.set i xs).get ⟨i, by simpa using hi⟩ = xs := by
              rw [List.get_eq_getElem]; exact List.getElem_set_self _
            rw [hvi2] at hsub
            rw [hvi]
            exact hsub.cons₂ x
          · have hsub := ih (vss.set j xs) ws2 hm i (by simpa using hi)
            have hvi2 : (vss.set j xs).get ⟨i, by simpa using hi⟩ =
                vss.get ⟨i, hi⟩ := by
              rw [List.get_eq_getElem, List.get_eq_getElem]
              exact List.getElem_set_ne (fun hh => hij hh.symm) _
            rw [hvi2] at hsub
            exact hsub.cons x

/-! ### Claim theorems -/

/-- C1: FIFO delivery — after `send(v1), …, send(vn)` through the single
sender of a fresh channel with no other sender interleaved, `n` calls to
`recv` return `Ok v1, …, Ok vn` in exactly that order. -/
theorem fifo_single_sender (α : Type) (vs : List α) :
    (recvN (sendAll (channel α) vs) vs.length).1 = vs.map RecvOutcome.ok := by
  rw [show channel α = ⟨[], 1, []⟩ from rfl, sendAll_eq]
  have h := recvN_drain vs.length [] vs 1 (by simp)
  simpa using h.1

/-- C2: `recv` reports `Disconnected` exactly when the private buffer and the
shared queue are empty and `senders = 0`; whenever at least one value is
pending, `recv` returns `Ok` with the oldest pending value, whatever the
sender count. -/
theorem recv_error_characterization (α : Type) (c : Chan α) :
    ((recv c).1 = RecvOutcome.disconnected ↔
      c.buf = [] ∧ c.queue = [] ∧ c.senders = 0) ∧
    (∀ (v : α) (l : List α), pending c = v :: l →
      (recv c).1 = RecvOutcome.ok v) := by
  refine ⟨recv_disconnected_iff c, ?_⟩
  intro v l hp
  rcases c with ⟨q, s, b⟩
  cases b with
  | cons x xs =>
    simp only [pending, List.cons_append, List.cons.injEq] at hp
    rw [← hp.1]
    simp [recv]
  | nil =>
    simp only [pending, List.nil_append] at hp
    subst hp
    cases l <;> simp [recv, recvLocked]

/-- C2 witness: on a channel with one pending value `5`, `recv` returns
`Ok 5`. -/
theorem recv_error_characterization_witness :
    (recv (⟨[5], 1, []⟩ : Chan Nat)).1 = RecvOutcome.ok 5 :=
  (recv_error_characterization Nat ⟨[5], 1, []⟩).2 5 [] rfl

/-- C3: buffer-swap transparency — for every sequence of send, clone, drop
and recv operations, the buffered implementation and the naive
always-pop-the-shared-queue implementation produce the same sequence of
`recv` results. -/
theorem buffer_swap_transparency (α : Type) (ops : List (Op α)) :
    (runChan (channel α) ops).1 =
      (runNaive (⟨[], 1⟩ : NaiveChan α) ops).1 := by
  have h := runChan_sim ops (channel α)
  have habs : abstr (channel α) = (⟨[], 1⟩ : NaiveChan α) := by
    simp [abstr, channel, pending]
  rw [habs] at h
  exact h.1

/-- C4: sender-count invariant — `channel` starts the count at 1, `clone`
adds exactly 1, a sender drop subtracts exactly 1, along every
handle-respecting trace the count equals the number of live handles (hence
the decrement never underflows), and once it reaches 0 no operation can
raise it again. -/
theorem sender_count_invariant (α : Type) :
    (channel α).senders = 1 ∧
    (∀ c : Chan α, (cloneSender c).senders = c.senders + 1) ∧
    (∀ c : Chan α, (dropSender c).senders = c.senders - 1) ∧
    (∀ (ops : List (Op α)) (c : Chan α) (h : Nat),
      runHandles (channel α) 1 ops = some (c, h) →
      c.senders = h ∧
      (h = 0 → ∀ (ops2 : List (Op α)) (c2 : Chan α) (h2 : Nat),
        runHandles c 0 ops2 = some (c2, h2) →
        c2.senders = 0 ∧ h2 = 0)) := by
  refine ⟨rfl, fun c => rfl, fun c => rfl, ?_⟩
  intro ops c h hrun
  have hc := runHandles_senders ops (channel α) 1 c h rfl hrun
  refine ⟨hc, ?_⟩
  intro h0 ops2 c2 h2 hrun2
  have hz := runHandles_zero ops2 c c2 h2 hrun2
  have hc2 := runHandles_senders ops2 c 0 c2 h2 (by rw [hc, h0]) hrun2
  exact ⟨by rw [hc2, hz], hz⟩

/-- C4 witness: dropping the only sender of a fresh channel yields count 0,
and a further `recv`-only trace keeps both the count and the handle number
at 0. -/
theorem sender_count_invariant_witness :
    (⟨[], 0, []⟩ : Chan Nat).senders = 0 ∧ (0 : Nat) = 0 :=
  ((sender_count_invariant Nat).2.2.2 [Op.dropS] ⟨[], 0, []⟩ 0 (by decide)).2
    rfl [Op.recvOp] ⟨[], 0, []⟩ 0 (by decide)

/-- C5: disconnection is permanent — once `recv` has reported
`Disconnected`, every handle-respecting continuation of the execution makes
every further `recv` report `Disconnected` as well. -/
theorem disconnected_permanent (α : Type) (c : Chan α)
    (h1 : (recv c).1 = RecvOutcome.disconnected)
    (ops : List (Op α)) (c2 : Chan α) (h2 : Nat)
    (hrun : runHandles c c.senders ops = some (c2, h2)) :
    (recv c2).1 = RecvOutcome.disconnected := by
  obtain ⟨hb, hq, hs⟩ := (recv_disconnected_iff c).mp h1
  rw [hs] at hrun
  have hc2 := runHandles_disconnected ops c c2 h2 hb hq hs hrun
  rw [hc2]
  exact h1

/-- C5 witness: on the empty disconnected channel, `recv` stays
`Disconnected` after a further `recv`. -/
theorem disconnected_permanent_witness :
    (recv (⟨[], 0, []⟩ : Chan Nat)).1 = RecvOutcome.disconnected :=
  disconnected_permanent Nat ⟨[], 0, []⟩ (by decide)
    [Op.recvOp] ⟨[], 0, []⟩ 0 (by decide)

/-- C6: exact delivery under multiple senders — for every lock-acquisition
schedule merging the per-sender send lists into a global enqueue order `ws`,
draining the channel returns exactly `ws`; `ws` is a permutation of all the
sent values (no loss, no duplication, total count the sum of the per-sender
counts) and each sender's list occurs in `ws` as a subsequence in its send
order. -/
theorem multi_sender_exact_delivery (α : Type) (vss : List (List α))
    (s : List Nat) (ws : List α) (hmerge : mergeSched vss s = some ws) :
    (recvN (sendAll (channel α) ws) ws.length).1 = ws.map RecvOutcome.ok ∧
    ws.Perm vss.flatten ∧
    ws.length = (vss.map List.length).sum ∧
    (∀ (i : Nat) (hi : i < vss.length),
      List.Sublist (vss.get ⟨i, hi⟩) ws) := by
  have hperm := mergeSched_perm s vss ws hmerge
  refine ⟨?_, hperm, ?_, mergeSched_sublist s vss ws hmerge⟩
  · rw [show channel α = ⟨[], 1, []⟩ from rfl, sendAll_eq]
    have h := recvN_drain ws.length [] ws 1 (by simp)
    simpa using h.1
  · rw [hperm.length_eq, List.length_flatten]

/-- C6 witness: two senders sending `[1, 2]` and `[3, 4]` under the
alternating schedule produce the enqueue order `[1, 3, 2, 4]`, and draining
returns exactly that order. -/
theorem multi_sender_exact_delivery_witness :
    (recvN (sendAll (channel Nat) [1, 3, 2, 4]) 4).1 =
      [1, 3, 2, 4].map RecvOutcome.ok :=
  (multi_sender_exact_delivery Nat [[1, 2], [3, 4]] [0, 1, 0, 1]
    [1, 3, 2, 4] (by decide)).1

/-- C7: swap-step postcondition — when `recv` pops `v` from the shared
queue leaving `rest`, a non-empty `rest` is moved wholesale into the private
buffer in its original order with the shared queue left empty, while an
empty `rest` leaves the private buffer exactly as it was. -/
theorem recv_swap_postcondition (α : Type) (c : Chan α) (v : α)
    (rest : List α) (hb : c.buf = []) (hq : c.queue = v :: rest) :
    (recv c).1 = RecvOutcome.ok v ∧
    (rest ≠ [] → (recv c).2.buf = rest ∧ (recv c).2.queue = []) ∧
    (rest = [] → (recv c).2.buf = c.buf ∧ (recv c).2.queue = []) := by
  rcases c with ⟨q, s, b⟩
  simp only at hb hq
  subst hb; subst hq
  cases rest <;> simp [recv, recvLocked]

/-- C7 witness: popping `1` from the queue `[1, 2, 3]` moves `[2, 3]` into
the private buffer and empties the shared queue. -/
theorem recv_swap_postcondition_witness :
    (recv (⟨[1, 2, 3], 1, []⟩ : Chan Nat)).2.buf = [2, 3] ∧
    (recv (⟨[1, 2, 3], 1, []⟩ : Chan Nat)).2.queue = [] :=
  (recv_swap_postcondition Nat ⟨[1, 2, 3], 1, []⟩ 1 [2, 3] rfl rfl).2.1
    (by decide)

/-- C8: `send` postcondition and frame — in every state, `send` appends the
value at the back of the shared queue, leaves the previously queued values
and their order unchanged, leaves the sender count and the receiver buffer
unchanged, and always succeeds (it is a total function with no error
outcome). -/
theorem send_postcondition (α : Type) (c : Chan α) (v : α) :
    (send c v).queue = c.queue ++ [v] ∧
    (send c v).senders = c.senders ∧
    (send c v).buf = c.buf := by
  simp [send]

/-- C9: slow-path buffer-emptiness — `recv` acquires the shared lock only
when the private buffer is empty, so the `mem::swap` in the swap step always
exchanges the remaining shared queue with an empty buffer: the remainder
lands in the buffer in order and the shared queue is left empty. -/
theorem slow_path_buffer_empty (α : Type) (c : Chan α)
    (hlock : recvAcquiresLock c = true) :
    c.buf = [] ∧
    (∀ (v : α) (rest : List α), c.queue = v :: rest → rest ≠ [] →
      (recv c).2.queue = [] ∧ (recv c).2.buf = rest) := by
  rcases c with ⟨q, s, b⟩
  cases b with
  | cons x xs => simp [recvAcquiresLock] at hlock
  | nil =>
    refine ⟨rfl, ?_⟩
    intro v rest hq hrest
    simp only at hq
    subst hq
    cases rest with
    | nil => exact absurd rfl hrest
    | cons y ys => simp [recv, recvLocked]

/-- C9 witness: with queue `[7, 8]` and an empty buffer, the locking `recv`
leaves the shared queue empty and the buffer holding `[8]`. -/
theorem slow_path_buffer_empty_witness :
    (recv (⟨[7, 8], 1, []⟩ : Chan Nat)).2.queue = [] ∧
    (recv (⟨[7, 8], 1, []⟩ : Chan Nat)).2.buf = [8] :=
  (slow_path_buffer_empty Nat ⟨[7, 8], 1, []⟩ rfl).2 7 [8] rfl (by decide)

/-- C10: `send` never checks for a live receiver — it is a total function
of the shared state alone (there is no receiver-liveness field for it to
consult), and after the receiver is gone only sender-side operations
remain, none of which ever removes the sent value: it stays in the shared
queue, at its position after the previously queued values, until the shared
state itself is freed. -/
theorem send_without_receiver (α : Type) (c : Chan α) (v : α)
    (ops : List (SenderOp α)) :
    ∃ t : List α,
      (runSenderOps (send c v) ops).queue = c.queue ++ v :: t := by
  obtain ⟨t, ht⟩ := runSenderOps_queue ops (send c v)
  refine ⟨t, ?_⟩
  rw [ht]
  simp [send]

end Channels
